import Mathlib

/-!
Shallow embedding of `LakeErie_SurfaceWater_AdaptiveThresholding.js`
(a Google Earth Engine script for adaptive surface-water thresholding)
and proofs about the claims of its specification.

Modelling conventions:
* Rasters are functions `Cell → Option ℚ`; `none` models a no-data
  (masked) cell, `some v` a valid sample of value `v`.  A finite
  `Finset Cell` models the raster footprint (the grid over which the
  Earth Engine server evaluates the expression).
* Earth Engine numbers are modelled by `ℚ`.  Earth Engine's arithmetic
  `divide` is documented to return 0 on division by zero, which agrees
  with the convention of `ℚ` division in Lean, so `/` is a faithful
  model of `ee.Number.divide` / `ee.Array.divide`.
* `ee.Array.sort(keys)` sorts the array values by the key array,
  keeping the original order of elements with equal keys; it is
  modelled by a sort of (key, index, value) triples under the
  lexicographic order on (key, index), which is exactly the stable
  sort by key.
* Distances: `ee.Image.fastDistanceTransform` defaults to the
  `squared_euclidean` metric, so the executable definitions work with
  squared pixel distances exactly as the code does; the theorems
  relate the resulting comparisons to genuine `Real.sqrt` Euclidean
  distances.
-/

/-- A pixel location on the processing grid. -/
abbrev Cell : Type := ℤ × ℤ

/-! ## Script configuration (lines 27–66 of the source) -/

/-- Line 32: `var setResolution = 30` (metres, minimum 10). -/
def setResolution : ℚ := 30

/-- Line 43: `var edgeLength = 25` — minimum length of edges kept. -/
def edgeLength : ℕ := 25

/-- Line 46: `var edgeBuffer = 60` — buffer in metres applied to edges. -/
def scriptEdgeBuffer : ℚ := 60

/-- Line 49: `var connectedPixels = 100` — neighbourhood size for the
connected-pixel-count filter. -/
def connectedPixels : ℕ := 100

/-! ## Season switch (lines 79–98 of the source)

The `switch (userSeason)` statement sets `seasonStartMonth` and
`seasonEndMonth` for the four recognised seasons.  Its `default`
branch only executes `print('Invalid season input. …')` and leaves
both month variables `undefined`; execution continues.  The embedding
returns the optionally-set month pair together with the list of
console messages printed by the statement.  Note the type has no
error outcome: the switch cannot raise. -/

/-- The message printed by the `default` branch of the season switch. -/
def invalidSeasonMsg : String :=
  "Invalid season input. Please choose Fall, Winter, Spring, or Summer."

/-- Lines 79–98: the season `switch`.  Returns the `(startMonth, endMonth)`
pair when one was assigned (`none` when the `default` branch ran and left
the variables undefined) and the list of messages printed. -/
def seasonSwitch (s : String) : Option (ℕ × ℕ) × List String :=
  if s = "Fall" then (some (9, 11), [])
  else if s = "Winter" then (some (12, 2), [])
  else if s = "Spring" then (some (3, 5), [])
  else if s = "Summer" then (some (6, 8), [])
  else (none, [invalidSeasonMsg])

/-! ## Projections and the common grid (lines 122–135, 352, 372–374) -/

/-- The part of an Earth Engine projection that the script observes:
its nominal scale in metres per pixel (`ee.Projection.nominalScale`). -/
structure Projection where
  nominalScale : ℚ
deriving DecidableEq

/-- Line 124: `var commonGrid = referenceImage.select(band).resample('bicubic')`.
`resample` only attaches an interpolation mode; the image keeps the
projection of `referenceImage` (the first Sentinel-1 scene, whose native
nominal scale is 10 m — not the script's `setResolution`). -/
def commonGridProjection (referenceProjection : Projection) : Projection :=
  referenceProjection

/-- Line 352: `var imageProj = commonGrid.projection()`. -/
def imageProj (referenceProjection : Projection) : Projection :=
  commonGridProjection referenceProjection

/-- Lines 373–374:
`var edgeBufferPixel = ee.Number(edgeBuffer).divide(imageProj.nominalScale())`. -/
def edgeBufferPixel (referenceProjection : Projection) (edgeBufferDist : ℚ) : ℚ :=
  edgeBufferDist / (imageProj referenceProjection).nominalScale

/-! ## Thresholding masks (lines 330, 344, 348–349, 492) -/

/-- `ee.Image.lt`: per-pixel strict comparison against a constant,
returning 1 where the value is below the constant and 0 otherwise;
no-data (masked) cells stay no-data. -/
def eeLt (img : Cell → Option ℚ) (t : ℚ) : Cell → Option ℚ :=
  fun c => (img c).map fun v => if v < t then 1 else 0

/-- Line 330: `var globalWater = s1Mosaic.select(band).lt(globalThreshold)`. -/
def globalWater (img : Cell → Option ℚ) (globalThreshold : ℚ) : Cell → Option ℚ :=
  eeLt img globalThreshold

/-- Line 344: `var initialThreshold = globalThreshold`. -/
def initialThreshold (globalThreshold : ℚ) : ℚ := globalThreshold

/-- Lines 348–349:
`var binary = s1Mosaic.select(band).lt(initialThreshold).rename('binary')`.
`rename` only relabels the band; pixel values are unchanged. -/
def binaryImage (img : Cell → Option ℚ) (globalThreshold : ℚ) : Cell → Option ℚ :=
  eeLt img (initialThreshold globalThreshold)

/-- Line 492: `var localWater = s1Mosaic.select(band).lt(localThreshold)`. -/
def localWater (img : Cell → Option ℚ) (localThreshold : ℚ) : Cell → Option ℚ :=
  eeLt img localThreshold

/-! ## Edge buffering (lines 366–377) -/

/-- Squared Euclidean distance between two grid cells (in pixels²). -/
def sqDist (a b : Cell) : ℤ :=
  (a.1 - b.1) ^ 2 + (a.2 - b.2) ^ 2

/-- A cell is a qualifying (non-zero, unmasked) pixel of a raster. -/
def isEdgePixel (img : Cell → Option ℚ) (c : Cell) : Bool :=
  match img c with
  | some v => v ≠ 0
  | none => false

/-- `ee.Image.fastDistanceTransform()` at a cell.  Called with no
arguments, its `metric` defaults to `squared_euclidean`, so the
per-pixel value is the *squared* Euclidean distance, in pixels², to the
nearest non-zero unmasked pixel of the input (`⊤` when the input has no
qualifying pixel at all, modelling an unboundedly large distance). -/
def fastDistanceTransformSq (grid : Finset Cell) (img : Cell → Option ℚ)
    (c : Cell) : WithTop ℤ :=
  ((grid.filter (fun d => isEdgePixel img d)).image (fun d => sqDist c d)).min

/-- The `.lt(r)` comparison applied to the distance-transform output:
the squared distance itself is compared against `r` (the script takes
no square root), so the effective Euclidean radius is `√r` pixels. -/
def sqDistLt (dSq : WithTop ℤ) (r : ℚ) : Bool :=
  decide (WithTop.map (fun d : ℤ => (d : ℚ)) dSq < ((r : ℚ) : WithTop ℚ))

/-- Line 377: `var bufferedEdges = edges.fastDistanceTransform().lt(edgeBufferPixel)`
as a boolean mask: the cells whose squared-distance transform value is
strictly below the threshold `r`. -/
def bufferedEdges (grid : Finset Cell) (img : Cell → Option ℚ) (r : ℚ)
    (c : Cell) : Bool :=
  sqDistLt (fastDistanceTransformSq grid img c) r

/-! ## Otsu thresholding (lines 182–213 of the source)

`function otsu(histogram)` receives a dictionary with arrays
`histogram` (bucket counts) and `bucketMeans`; the embedding passes the
two arrays directly as `counts` and `means`.  Each intermediate
variable of the source body is a definition below. -/

/-- Line 195: `var indices = ee.List.sequence(1, size)` — the list
`[1, 2, …, size]`, both endpoints included. -/
def otsuIndices (size : ℕ) : List ℕ := List.range' 1 size

/-- Line 190: `var total = counts.reduce(ee.Reducer.sum(), [0]).get([0])`. -/
def histTotal (counts : List ℚ) : ℚ := counts.sum

/-- Lines 191–192: `var sum = means.multiply(counts).reduce(ee.Reducer.sum(), [0]).get([0])`. -/
def histSum (counts means : List ℚ) : ℚ :=
  (List.zipWith (· * ·) means counts).sum

/-- Line 193: `var mean = sum.divide(total)` (the grand mean). -/
def otsuGrandMean (counts means : List ℚ) : ℚ :=
  histSum counts means / histTotal counts

/-- Lines 197–199: `var aCounts = counts.slice(0, 0, i)` summed:
`var aCount = aCounts.reduce(ee.Reducer.sum(), [0]).get([0])`. -/
def aCountAt (counts : List ℚ) (i : ℕ) : ℚ := (counts.take i).sum

/-- Lines 200–203: `var aMean = aMeans.multiply(aCounts).reduce(sum).get([0]).divide(aCount)`. -/
def aMeanAt (counts means : List ℚ) (i : ℕ) : ℚ :=
  (List.zipWith (· * ·) (means.take i) (counts.take i)).sum / aCountAt counts i

/-- Line 204: `var bCount = total.subtract(aCount)`. -/
def bCountAt (counts : List ℚ) (i : ℕ) : ℚ :=
  histTotal counts - aCountAt counts i

/-- Lines 205–206: `var bMean = sum.subtract(aCount.multiply(aMean)).divide(bCount)`.
When `bCount` is zero the divisor of this expression is zero; Earth
Engine's `divide` (like ℚ division here) then returns 0. -/
def bMeanAt (counts means : List ℚ) (i : ℕ) : ℚ :=
  (histSum counts means - aCountAt counts i * aMeanAt counts means i) / bCountAt counts i

/-- Lines 207–209: the between-class sum of squares returned by the
mapped function for split index `i`. -/
def bssAt (counts means : List ℚ) (i : ℕ) : ℚ :=
  aCountAt counts i * (aMeanAt counts means i - otsuGrandMean counts means) ^ 2
    + bCountAt counts i * (bMeanAt counts means i - otsuGrandMean counts means) ^ 2

/-- Lines 196–210: `var bss = indices.map(function(i) {…})` where
`size = means.length().get([0])`. -/
def bssList (counts means : List ℚ) : List ℚ :=
  (otsuIndices means.length).map fun i => bssAt counts means i

/-- The order used to model `ee.Array.sort(keys)`: triples
`(key, original index, value)` compared by key and, on equal keys, by
original index — i.e. the stable sort by key. -/
def lexLe (a b : ℚ × ℕ × ℚ) : Prop :=
  a.1 < b.1 ∨ (a.1 = b.1 ∧ a.2.1 ≤ b.2.1)

instance : DecidableRel lexLe := fun a b => by
  unfold lexLe; infer_instance

instance : IsTotal (ℚ × ℕ × ℚ) lexLe where
  total a b := by
    unfold lexLe
    rcases lt_trichotomy a.1 b.1 with h | h | h
    · exact Or.inl (Or.inl h)
    · rcases Nat.le_total a.2.1 b.2.1 with h2 | h2
      · exact Or.inl (Or.inr ⟨h, h2⟩)
      · exact Or.inr (Or.inr ⟨h.symm, h2⟩)
    · exact Or.inr (Or.inl h)

instance : IsTrans (ℚ × ℕ × ℚ) lexLe where
  trans a b c hab hbc := by
    unfold lexLe at *
    rcases hab with h1 | ⟨e1, i1⟩
    · rcases hbc with h2 | ⟨e2, _⟩
      · exact Or.inl (h1.trans h2)
      · exact Or.inl (e2 ▸ h1)
    · rcases hbc with h2 | ⟨e2, i2⟩
      · exact Or.inl (e1 ▸ h2)
      · exact Or.inr ⟨e1.trans e2, i1.trans i2⟩

/-- The `(key, index, value)` triples of two equal-length arrays. -/
def keyPairs (keys vals : List ℚ) : List (ℚ × ℕ × ℚ) :=
  (List.range vals.length).map fun i => (keys.getD i 0, i, vals.getD i 0)

/-- Line 212: `means.sort(bss).get([-1])` — sort the values by the keys
(stably) and take the last element. -/
def eeSortLast (keys vals : List ℚ) : ℚ :=
  (((keyPairs keys vals).insertionSort lexLe).getLast?).elim 0 fun p => p.2.2

/-- Lines 182–213: the whole `otsu` function. -/
def otsu (counts means : List ℚ) : ℚ :=
  eeSortLast (bssList counts means) means

/-- The index of the last occurrence of the maximal key (a specification
helper, used to characterise `eeSortLast`). -/
def amAux (keys : List ℚ) (n : ℕ) : ℕ :=
  (List.range n).foldl (fun acc i => if keys.getD acc 0 ≤ keys.getD i 0 then i else acc) 0

/-- The last index at which a list of keys attains its maximum. -/
def argmaxLast (keys : List ℚ) : ℕ := amAux keys keys.length

/-! ## Edge filtering by connected-component size (lines 363–370)

`connected = canny.updateMask(canny).lt(cannyLt).connectedPixelCount(connectedPixels, true)`
`edges = connected.gte(edgeLength)`

`ee.Image.connectedPixelCount(maxSize, eightConnected)` labels the
connected components of *same-valued* unmasked pixels (both the
zero-valued and the non-zero-valued blobs get labels) and returns, per
unmasked pixel, the size of its component capped at `maxSize`; masked
pixels stay masked.  The component of a cell is computed executably as
the fixed point of a neighbour-expansion step, reached after at most
`|V| + 1` iterations. -/

/-- Eight-neighbour adjacency of distinct grid cells. -/
def adj8 (a b : Cell) : Bool :=
  decide (a ≠ b) && decide ((a.1 - b.1).natAbs ≤ 1) && decide ((a.2 - b.2).natAbs ≤ 1)

/-- Four-neighbour adjacency of distinct grid cells. -/
def adj4 (a b : Cell) : Bool :=
  decide ((a.1 - b.1).natAbs + (a.2 - b.2).natAbs = 1)

/-- The neighbourhood selected by `eightConnected`. -/
def adjRel (eight : Bool) (a b : Cell) : Bool :=
  if eight then adj8 a b else adj4 a b

/-- The unmasked cells of a raster within the footprint. -/
def validCells (grid : Finset Cell) (img : Cell → Option ℚ) : Finset Cell :=
  grid.filter fun d => (img d).isSome

/-- Two cells carry the same pixel value (including the mask state). -/
def sameValue (img : Cell → Option ℚ) (a b : Cell) : Bool :=
  decide (img a = img b)

/-- The edge relation of `connectedPixelCount`: adjacent and same-valued. -/
def okSame (img : Cell → Option ℚ) (eight : Bool) (a b : Cell) : Bool :=
  adjRel eight a b && sameValue img a b

/-- One expansion step of a component: add every vertex of `V` adjacent
(under `ok`) to the current set. -/
def compStep (V : Finset Cell) (ok : Cell → Cell → Bool) (s : Finset Cell) : Finset Cell :=
  s ∪ V.filter fun b => ∃ a ∈ s, ok a b = true

/-- The connected component of `c` in the graph on `V` with edges `ok`:
the fixed point of `compStep`, reached within `|V| + 1` steps. -/
def component (V : Finset Cell) (ok : Cell → Cell → Bool) (c : Cell) : Finset Cell :=
  (compStep V ok)^[V.card + 1] {c}

/-- Lines 366–367: `ee.Image.connectedPixelCount(maxSize, eightConnected)`
on a raster: per unmasked pixel, the size of its same-value connected
component capped at `maxSize`; masked pixels stay masked. -/
def connectedPixelCount (grid : Finset Cell) (eight : Bool) (maxSize : ℕ)
    (img : Cell → Option ℚ) (c : Cell) : Option ℕ :=
  (img c).map fun _ =>
    min (component (validCells grid img) (okSame img eight) c).card maxSize

/-- Lines 366–370 as one operation (the spec's EdgeFilter): the
connected-pixel count followed by `gte(edgeLength)`, so an unmasked
pixel maps to 1 when its capped component size reaches `L` and to 0
otherwise. -/
def edgeFilter (grid : Finset Cell) (eight : Bool) (maxSize L : ℕ)
    (img : Cell → Option ℚ) (c : Cell) : Option ℚ :=
  (connectedPixelCount grid eight maxSize img c).map fun k => if L ≤ k then 1 else 0

/-- One step of connectivity inside the vertex set `V`: both endpoints
are vertices and `ok` relates them (a specification helper used to
characterise `component`). -/
def stepRel (V : Finset Cell) (ok : Cell → Cell → Bool) (x y : Cell) : Prop :=
  x ∈ V ∧ y ∈ V ∧ ok x y = true

/-! # Helper lemmas about the edge buffer -/

lemma sqDist_nonneg (a b : Cell) : 0 ≤ sqDist a b := by
  unfold sqDist
  positivity

/-- The buffered-edge mask holds at a cell exactly when some qualifying
edge pixel lies at squared pixel distance below the threshold `r`. -/
lemma bufferedEdges_true_iff (grid : Finset Cell) (img : Cell → Option ℚ)
    (r : ℚ) (c : Cell) :
    bufferedEdges grid img r c = true ↔
      ∃ e ∈ grid, isEdgePixel img e = true ∧ (sqDist c e : ℚ) < r := by
  unfold bufferedEdges sqDistLt fastDistanceTransformSq
  rw [decide_eq_true_eq]
  constructor
  · intro hlt
    rcases eq_or_ne ((grid.filter (fun d => isEdgePixel img d)).image (fun d => sqDist c d)) ∅
        with he | he
    · rw [he, Finset.min_empty, WithTop.map_top] at hlt
      exact absurd hlt not_top_lt
    · have hne := Finset.nonempty_iff_ne_empty.mpr he
      rw [← Finset.coe_min' hne, WithTop.map_coe, WithTop.coe_lt_coe] at hlt
      obtain ⟨e, he1, he2⟩ := Finset.mem_image.mp (Finset.min'_mem _ hne)
      rw [Finset.mem_filter] at he1
      exact ⟨e, he1.1, he1.2, by rw [he2]; exact hlt⟩
  · rintro ⟨e, hg, hedge, hlt⟩
    have hmem : sqDist c e ∈
        (grid.filter (fun d => isEdgePixel img d)).image (fun d => sqDist c d) :=
      Finset.mem_image.mpr ⟨e, Finset.mem_filter.mpr ⟨hg, hedge⟩, rfl⟩
    have hne : ((grid.filter (fun d => isEdgePixel img d)).image (fun d => sqDist c d)).Nonempty :=
      ⟨_, hmem⟩
    rw [← Finset.coe_min' hne, WithTop.map_coe, WithTop.coe_lt_coe]
    have hle := Finset.min'_le _ _ hmem
    calc ((((grid.filter (fun d => isEdgePixel img d)).image
            (fun d => sqDist c d)).min' hne : ℤ) : ℚ)
        ≤ ((sqDist c e : ℤ) : ℚ) := by exact_mod_cast hle
      _ < r := hlt

/-- Comparing two squared quantities is comparing their square roots:
for `0 ≤ d`, `√d < √r ↔ d < r` (for `r < 0` both sides are false). -/
lemma sqrt_lt_sqrt_iff (d : ℤ) (hd : 0 ≤ d) (r : ℚ) :
    Real.sqrt ((d : ℤ) : ℝ) < Real.sqrt ((r : ℚ) : ℝ) ↔ (d : ℚ) < r := by
  constructor
  · intro h
    by_contra hc
    push_neg at hc
    have hcr : ((r : ℚ) : ℝ) ≤ ((d : ℤ) : ℝ) := by exact_mod_cast hc
    exact absurd h (not_lt.mpr (Real.sqrt_le_sqrt hcr))
  · intro h
    have hdR : (0 : ℝ) ≤ ((d : ℤ) : ℝ) := by exact_mod_cast hd
    have hlt : ((d : ℤ) : ℝ) < ((r : ℚ) : ℝ) := by exact_mod_cast h
    exact Real.sqrt_lt_sqrt hdR hlt

/-- Case analysis of the per-pixel behaviour of `ee.Image.lt`. -/
lemma eeLt_cases (o : Option ℚ) (t : ℚ) :
    (∀ w, (o.map fun u => if u < t then (1 : ℚ) else 0) = some w → w = 1 ∨ w = 0) ∧
    ((o.map fun u => if u < t then (1 : ℚ) else 0) = some 1 ↔ ∃ w, o = some w ∧ w < t) ∧
    ((o.map fun u => if u < t then (1 : ℚ) else 0) = none ↔ o = none) := by
  cases o with
  | none => simp
  | some v =>
    refine ⟨?_, ?_, by simp⟩
    · intro w hw
      simp only [Option.map_some', Option.some.injEq] at hw
      subst hw
      split_ifs <;> simp
    · simp only [Option.map_some', Option.some.injEq]
      constructor
      · intro hw
        refine ⟨v, rfl, ?_⟩
        by_contra hvt
        rw [if_neg hvt] at hw
        norm_num at hw
      · rintro ⟨w, hw, hwt⟩
        subst hw
        rw [if_pos hwt]

/-! # Claims C3, C4, C5, C6, C8, C9 -/

/-- Claim C3 (confirmed): for every raster and threshold, the mask
generator (`ee.Image.lt`, used for both `globalWater` and `localWater`)
yields only values 0 and 1, equals 1 exactly where the raster value is
strictly below the threshold, and keeps no-data cells no-data. -/
theorem C3_theorem (img : Cell → Option ℚ) (t : ℚ) (c : Cell) :
    (∀ v, globalWater img t c = some v → v = 1 ∨ v = 0) ∧
    (globalWater img t c = some 1 ↔ ∃ v, img c = some v ∧ v < t) ∧
    (globalWater img t c = none ↔ img c = none) ∧
    (∀ v, localWater img t c = some v → v = 1 ∨ v = 0) ∧
    (localWater img t c = some 1 ↔ ∃ v, img c = some v ∧ v < t) ∧
    (localWater img t c = none ↔ img c = none) := by
  obtain ⟨h1, h2, h3⟩ := eeLt_cases (img c) t
  exact ⟨h1, h2, h3, h1, h2, h3⟩

/-- Claim C3 witness: the characterisation evaluated on a concrete
one-cell raster with value −1 against threshold 0. -/
theorem C3_witness :
    (∀ v, globalWater (fun _ => some (-1 : ℚ)) 0 ((0 : ℤ), (0 : ℤ)) = some v → v = 1 ∨ v = 0) ∧
    (globalWater (fun _ => some (-1 : ℚ)) 0 ((0 : ℤ), (0 : ℤ)) = some 1 ↔
      ∃ v, (fun _ : Cell => some (-1 : ℚ)) ((0 : ℤ), (0 : ℤ)) = some v ∧ v < 0) ∧
    (globalWater (fun _ => some (-1 : ℚ)) 0 ((0 : ℤ), (0 : ℤ)) = none ↔
      (fun _ : Cell => some (-1 : ℚ)) ((0 : ℤ), (0 : ℤ)) = none) ∧
    (∀ v, localWater (fun _ => some (-1 : ℚ)) 0 ((0 : ℤ), (0 : ℤ)) = some v → v = 1 ∨ v = 0) ∧
    (localWater (fun _ => some (-1 : ℚ)) 0 ((0 : ℤ), (0 : ℤ)) = some 1 ↔
      ∃ v, (fun _ : Cell => some (-1 : ℚ)) ((0 : ℤ), (0 : ℤ)) = some v ∧ v < 0) ∧
    (localWater (fun _ => some (-1 : ℚ)) 0 ((0 : ℤ), (0 : ℤ)) = none ↔
      (fun _ : Cell => some (-1 : ℚ)) ((0 : ℤ), (0 : ℤ)) = none) :=
  C3_theorem (fun _ => some (-1 : ℚ)) 0 ((0 : ℤ), (0 : ℤ))

/-- Claim C9 (confirmed): the preliminary binary classification fed to
the edge detector (line 348) is pointwise identical to the
global-threshold water mask (line 330): both are the strict `lt` of the
same band against the same global threshold. -/
theorem C9_theorem (img : Cell → Option ℚ) (t : ℚ) (c : Cell) :
    binaryImage img t c = globalWater img t c := rfl

/-- Claim C4 counterexample: the script's pixel conversion divides the
buffer distance by the nominal scale of the common grid's projection —
the native projection of the reference image (10 m for Sentinel-1), not
the configured `setResolution` (30 m).  With the script's own
parameters the two formulas disagree (6 pixels vs 2 pixels). -/
theorem C4_counterexample :
    edgeBufferPixel ⟨10⟩ scriptEdgeBuffer ≠ scriptEdgeBuffer / setResolution := by
  norm_num [edgeBufferPixel, imageProj, commonGridProjection, scriptEdgeBuffer, setResolution]

/-- Claim C4 (corrected): the buffer conversion is
`bufferPixels = bufferDistance / nominalScale(commonGrid.projection())`
— the reference image's native scale, not the configured resolution
parameter — and, since `fastDistanceTransform()` defaults to the
`squared_euclidean` metric, `.lt(bufferPixels)` keeps exactly the cells
whose *squared* pixel distance to the nearest qualifying edge pixel is
below `bufferPixels`, i.e. whose Euclidean distance is below
`√bufferPixels` pixels — not `bufferPixels` pixels. -/
theorem C4_theorem (proj : Projection) (d : ℚ) (grid : Finset Cell)
    (img : Cell → Option ℚ) (c : Cell) :
    edgeBufferPixel proj d = d / proj.nominalScale ∧
    (bufferedEdges grid img (edgeBufferPixel proj d) c = true ↔
      ∃ e ∈ grid, isEdgePixel img e = true ∧
        (sqDist c e : ℚ) < edgeBufferPixel proj d) ∧
    (bufferedEdges grid img (edgeBufferPixel proj d) c = true ↔
      ∃ e ∈ grid, isEdgePixel img e = true ∧
        Real.sqrt ((sqDist c e : ℤ) : ℝ)
          < Real.sqrt ((edgeBufferPixel proj d : ℚ) : ℝ)) := by
  refine ⟨rfl, bufferedEdges_true_iff _ _ _ _, ?_⟩
  rw [bufferedEdges_true_iff]
  constructor
  · rintro ⟨e, hg, hedge, hlt⟩
    exact ⟨e, hg, hedge, (sqrt_lt_sqrt_iff _ (sqDist_nonneg c e) _).mpr hlt⟩
  · rintro ⟨e, hg, hedge, hlt⟩
    exact ⟨e, hg, hedge, (sqrt_lt_sqrt_iff _ (sqDist_nonneg c e) _).mp hlt⟩

/-- Claim C5 counterexample: with buffer distance 0 the pixel threshold
is 0 and the strict comparison `squaredDistance < 0` never holds, so
the buffer mask is 0 at a cell that is itself a qualifying edge pixel —
the buffer mask does not equal the filtered edge mask there. -/
theorem C5_counterexample :
    bufferedEdges {((0 : ℤ), (0 : ℤ))}
        (fun c => if c = ((0 : ℤ), (0 : ℤ)) then some (1 : ℚ) else none)
        (edgeBufferPixel ⟨30⟩ 0) ((0 : ℤ), (0 : ℤ)) = false ∧
    isEdgePixel (fun c => if c = ((0 : ℤ), (0 : ℤ)) then some (1 : ℚ) else none)
        ((0 : ℤ), (0 : ℤ)) = true := by
  constructor
  · rw [Bool.eq_false_iff]
    intro hb
    obtain ⟨e, hg, hedge, hlt⟩ := (bufferedEdges_true_iff _ _ _ _).mp hb
    have hz : edgeBufferPixel ⟨30⟩ 0 = 0 := by
      simp [edgeBufferPixel, imageProj, commonGridProjection]
    rw [hz] at hlt
    have hnn : (0 : ℚ) ≤ ((sqDist ((0 : ℤ), (0 : ℤ)) e : ℤ) : ℚ) := by
      exact_mod_cast sqDist_nonneg _ e
    exact absurd hlt (not_lt.mpr hnn)
  · simp [isEdgePixel]

/-- Claim C5 (corrected): with buffer distance 0 the buffered-edge mask
is identically 0 (so it equals the filtered edge mask only when that
mask has no qualifying pixel at all). -/
theorem C5_theorem (proj : Projection) (grid : Finset Cell)
    (img : Cell → Option ℚ) (c : Cell) :
    bufferedEdges grid img (edgeBufferPixel proj 0) c = false := by
  rw [Bool.eq_false_iff]
  intro hb
  obtain ⟨e, hg, hedge, hlt⟩ := (bufferedEdges_true_iff _ _ _ _).mp hb
  have hz : edgeBufferPixel proj 0 = 0 := by
    simp [edgeBufferPixel]
  rw [hz] at hlt
  have hnn : (0 : ℚ) ≤ ((sqDist c e : ℤ) : ℚ) := by
    exact_mod_cast sqDist_nonneg c e
  exact absurd hlt (not_lt.mpr hnn)

/-- Claim C6 (confirmed): the edge buffer is monotonic in the physical
buffer distance — with a positive nominal scale, every cell of the mask
built from distance `d1 ≤ d2` is in the mask built from `d2`. -/
theorem C6_theorem (proj : Projection) (d1 d2 : ℚ) (grid : Finset Cell)
    (img : Cell → Option ℚ) (c : Cell)
    (h12 : d1 ≤ d2) (hs : 0 < proj.nominalScale)
    (hm : bufferedEdges grid img (edgeBufferPixel proj d1) c = true) :
    bufferedEdges grid img (edgeBufferPixel proj d2) c = true := by
  obtain ⟨e, hg, hedge, hlt⟩ := (bufferedEdges_true_iff _ _ _ _).mp hm
  have hrr : edgeBufferPixel proj d1 ≤ edgeBufferPixel proj d2 :=
    div_le_div_of_nonneg_right h12 hs.le
  exact (bufferedEdges_true_iff _ _ _ _).mpr ⟨e, hg, hedge, lt_of_lt_of_le hlt hrr⟩

/-- Claim C6 witness: monotonicity applied to a concrete one-pixel edge
raster with distances 30 ≤ 60 at scale 30. -/
theorem C6_witness :
    bufferedEdges {((0 : ℤ), (0 : ℤ))}
      (fun c => if c = ((0 : ℤ), (0 : ℤ)) then some (1 : ℚ) else none)
      (edgeBufferPixel ⟨30⟩ 60) ((0 : ℤ), (0 : ℤ)) = true :=
  C6_theorem ⟨30⟩ 30 60 _ _ _ (by norm_num) (by norm_num)
    ((bufferedEdges_true_iff _ _ _ _).mpr
      ⟨((0 : ℤ), (0 : ℤ)), by simp, by simp [isEdgePixel],
        by norm_num [sqDist, edgeBufferPixel, imageProj, commonGridProjection]⟩)

/-- Claim C8 counterexample: an unrecognised season does not raise any
validation error — the `switch`'s `default` branch merely prints the
advisory message and leaves the season months unset, and the script
continues (the embedding's result type has no error outcome at all). -/
theorem C8_counterexample :
    (seasonSwitch "Autumn").1 = none ∧ (seasonSwitch "Autumn").2 = [invalidSeasonMsg] := by
  constructor <;> rfl

/-- Claim C8 (corrected): the script performs no upfront parameter
validation.  The season switch recognises exactly the four seasons; for
any other input it only logs the advisory message and leaves the months
unset (no error is raised before — or instead of — pipeline
construction), and resolution/band/edge parameters are never checked. -/
theorem C8_theorem (s : String) :
    ((seasonSwitch s).1.isSome ↔ s = "Fall" ∨ s = "Winter" ∨ s = "Spring" ∨ s = "Summer") ∧
    ((seasonSwitch s).1 = none → (seasonSwitch s).2 = [invalidSeasonMsg]) ∧
    ((seasonSwitch s).1.isSome → (seasonSwitch s).2 = []) := by
  unfold seasonSwitch
  split_ifs with h1 h2 h3 h4 <;> simp_all

/-- Claim C8 witness: the characterisation evaluated at the
unrecognised season string "Autumn". -/
theorem C8_witness :
    ((seasonSwitch "Autumn").1.isSome ↔
      "Autumn" = "Fall" ∨ "Autumn" = "Winter" ∨ "Autumn" = "Spring" ∨ "Autumn" = "Summer") ∧
    ((seasonSwitch "Autumn").1 = none → (seasonSwitch "Autumn").2 = [invalidSeasonMsg]) ∧
    ((seasonSwitch "Autumn").1.isSome → (seasonSwitch "Autumn").2 = []) :=
  C8_theorem "Autumn"

/-! # Helper lemmas about the Otsu embedding -/

lemma sum_take_eq (l : List ℚ) (k : ℕ) (hk : k ≤ l.length) :
    (l.take k).sum = ∑ i ∈ Finset.range k, l.getD i 0 := by
  induction l generalizing k with
  | nil =>
    have hk0 : k = 0 := by simpa using hk
    subst hk0
    simp
  | cons a l ih =>
    cases k with
    | zero => simp
    | succ m =>
      rw [List.take_succ_cons, List.sum_cons, Finset.sum_range_succ']
      rw [ih m (by simpa using hk)]
      simp only [List.getD_cons_succ, List.getD_cons_zero]
      ring

lemma sum_zipWith_take_eq (means counts : List ℚ) (k : ℕ)
    (hk1 : k ≤ means.length) (hk2 : k ≤ counts.length) :
    (List.zipWith (· * ·) (means.take k) (counts.take k)).sum
      = ∑ i ∈ Finset.range k, means.getD i 0 * counts.getD i 0 := by
  have hlen : (List.zipWith (· * ·) (means.take k) (counts.take k)).length = k := by
    simp only [List.length_zipWith, List.length_take]
    omega
  have h1 := sum_take_eq (List.zipWith (· * ·) (means.take k) (counts.take k)) k (le_of_eq hlen.symm)
  rw [List.take_of_length_le (le_of_eq hlen)] at h1
  rw [h1]
  apply Finset.sum_congr rfl
  intro i hi
  rw [Finset.mem_range] at hi
  have hik : i < (List.zipWith (· * ·) (means.take k) (counts.take k)).length := by
    rw [hlen]; exact hi
  rw [List.getD_eq_getElem _ _ hik, List.getElem_zipWith, List.getElem_take, List.getElem_take]
  rw [List.getD_eq_getElem means 0 (by omega), List.getD_eq_getElem counts 0 (by omega)]

lemma histTotal_eq (counts : List ℚ) (n : ℕ) (hc : counts.length = n) :
    histTotal counts = ∑ i ∈ Finset.range n, counts.getD i 0 := by
  unfold histTotal
  have h1 := sum_take_eq counts n (le_of_eq hc.symm)
  rw [List.take_of_length_le (le_of_eq hc)] at h1
  exact h1

lemma histSum_eq (counts means : List ℚ) (n : ℕ)
    (hc : counts.length = n) (hm : means.length = n) :
    histSum counts means = ∑ i ∈ Finset.range n, means.getD i 0 * counts.getD i 0 := by
  unfold histSum
  have h1 : List.zipWith (· * ·) means counts
      = List.zipWith (· * ·) (means.take n) (counts.take n) := by
    rw [List.take_of_length_le (le_of_eq hm), List.take_of_length_le (le_of_eq hc)]
  rw [h1, sum_zipWith_take_eq means counts n (le_of_eq hm.symm) (le_of_eq hc.symm)]

lemma aCountAt_eq (counts : List ℚ) (k : ℕ) (hk : k ≤ counts.length) :
    aCountAt counts k = ∑ i ∈ Finset.range k, counts.getD i 0 :=
  sum_take_eq counts k hk

/-- At the out-of-range split index `N` the whole histogram is class A:
class B has count zero and the `bss` expression evaluates to 0 (its
class-B term is `0 · (bMean − mean)²` and its class-A mean coincides
with the grand mean). -/
lemma bssAt_length (counts means : List ℚ) (n : ℕ)
    (hc : counts.length = n) (hm : means.length = n) :
    bCountAt counts n = 0 ∧ bssAt counts means n = 0 := by
  have htake : counts.take n = counts := List.take_of_length_le (le_of_eq hc)
  have hmtake : means.take n = means := List.take_of_length_le (le_of_eq hm)
  have hA : aCountAt counts n = histTotal counts := by
    unfold aCountAt histTotal
    rw [htake]
  have hB : bCountAt counts n = 0 := by
    unfold bCountAt
    rw [hA, sub_self]
  refine ⟨hB, ?_⟩
  have hAM : aMeanAt counts means n = otsuGrandMean counts means := by
    unfold aMeanAt otsuGrandMean histSum
    rw [htake, hmtake, hA]
  unfold bssAt
  rw [hAM, hB, sub_self]
  ring

/-- Claim C10 (confirmed): the candidate split indices of `otsu` are
`1 … N` inclusive (`ee.List.sequence(1, size)`), and at the final index
`N` the class-B count `total − countA` is zero, so the class-B mean
expression divides by zero — unguarded; under Earth Engine's
divide-by-zero-gives-0 convention the whole BSS entry evaluates to 0. -/
theorem C10_theorem (counts means : List ℚ) (n : ℕ)
    (hc : counts.length = n) (hm : means.length = n) (h0 : 0 < n) :
    n ∈ otsuIndices n ∧ bCountAt counts n = 0 ∧ bssAt counts means n = 0 := by
  obtain ⟨hB, hbss⟩ := bssAt_length counts means n hc hm
  refine ⟨?_, hB, hbss⟩
  rw [otsuIndices, List.mem_range']
  exact ⟨n - 1, by omega, by omega⟩

/-- Claim C10 witness: the two-bucket histogram `counts = [1,1]`,
`means = [0,1]` — index 2 is a candidate split and its class-B count is
zero. -/
theorem C10_witness :
    2 ∈ otsuIndices 2 ∧ bCountAt [1, 1] 2 = 0 ∧ bssAt [1, 1] [0, 1] 2 = 0 :=
  C10_theorem [1, 1] [0, 1] 2 rfl rfl (by norm_num)

lemma amAux_succ (keys : List ℚ) (n : ℕ) :
    amAux keys (n + 1)
      = if keys.getD (amAux keys n) 0 ≤ keys.getD n 0 then n else amAux keys n := by
  unfold amAux
  rw [List.range_succ, List.foldl_append, List.foldl_cons, List.foldl_nil]

lemma amAux_zero (keys : List ℚ) : amAux keys 0 = 0 := rfl

lemma amAux_lt (keys : List ℚ) (n : ℕ) (h0 : 0 < n) : amAux keys n < n := by
  induction n with
  | zero => omega
  | succ m ih =>
    rw [amAux_succ]
    split_ifs
    · omega
    · rcases Nat.eq_zero_or_pos m with rfl | hm
      · rw [amAux_zero]
        omega
      · exact lt_trans (ih hm) (by omega)

lemma amAux_le (keys : List ℚ) (n : ℕ) :
    ∀ i, i < n → keys.getD i 0 ≤ keys.getD (amAux keys n) 0 := by
  induction n with
  | zero => omega
  | succ m ih =>
    intro i hi
    rw [amAux_succ]
    split_ifs with hif
    · rcases Nat.lt_succ_iff_lt_or_eq.mp hi with him | rfl
      · exact le_trans (ih i him) hif
      · exact le_refl _
    · rcases Nat.lt_succ_iff_lt_or_eq.mp hi with him | rfl
      · exact ih i him
      · exact le_of_lt (lt_of_not_le hif)

lemma amAux_last (keys : List ℚ) (n : ℕ) :
    ∀ i, i < n → keys.getD (amAux keys n) 0 ≤ keys.getD i 0 → i ≤ amAux keys n := by
  induction n with
  | zero => omega
  | succ m ih =>
    intro i hi
    rw [amAux_succ]
    split_ifs with hif
    · intro _
      omega
    · rcases Nat.lt_succ_iff_lt_or_eq.mp hi with him | rfl
      · exact ih i him
      · intro habs
        exact absurd habs (not_le.mpr (lt_of_not_le hif))

lemma lexLe_fst {a b : ℚ × ℕ × ℚ} (h : lexLe a b) : a.1 ≤ b.1 := by
  rcases h with h | ⟨h, _⟩
  · exact le_of_lt h
  · exact le_of_eq h

lemma lexLe_refl (a : ℚ × ℕ × ℚ) : lexLe a a := Or.inr ⟨rfl, le_refl _⟩

lemma keyPairs_mem (keys vals : List ℚ) (p : ℚ × ℕ × ℚ) :
    p ∈ keyPairs keys vals ↔
      ∃ i, i < vals.length ∧ p = (keys.getD i 0, i, vals.getD i 0) := by
  unfold keyPairs
  simp only [List.mem_map, List.mem_range]
  constructor
  · rintro ⟨i, hi, rfl⟩
    exact ⟨i, hi, rfl⟩
  · rintro ⟨i, hi, rfl⟩
    exact ⟨i, hi, rfl⟩

lemma pairwise_getLast {α : Type} (r : α → α → Prop) (l : List α) (hne : l ≠ [])
    (hp : l.Pairwise r) : ∀ x ∈ l, x = l.getLast hne ∨ r x (l.getLast hne) := by
  induction l with
  | nil => exact absurd rfl hne
  | cons a l ih =>
    intro x hx
    rcases eq_or_ne l ([] : List α) with rfl | hl
    · rcases List.mem_singleton.mp hx with rfl
      left
      rfl
    · rw [List.getLast_cons hl]
      rcases List.mem_cons.mp hx with rfl | hxl
      · right
        exact (List.pairwise_cons.mp hp).1 _ (List.getLast_mem hl)
      · exact ih hl (List.pairwise_cons.mp hp).2 x hxl

/-- `means.sort(bss).get([-1])` returns the value whose key is maximal,
taking the value at the *last* index attaining the maximum. -/
lemma eeSortLast_eq (keys vals : List ℚ) (hk : keys.length = vals.length)
    (h0 : 0 < vals.length) :
    eeSortLast keys vals = vals.getD (argmaxLast keys) 0 := by
  have hmn : argmaxLast keys = amAux keys vals.length := by
    unfold argmaxLast
    rw [hk]
  have hmlt : argmaxLast keys < vals.length := by
    rw [hmn]
    exact amAux_lt keys vals.length h0
  have hplen : (keyPairs keys vals).length = vals.length := by
    unfold keyPairs
    simp
  have hperm := List.perm_insertionSort lexLe (keyPairs keys vals)
  have hslen : ((keyPairs keys vals).insertionSort lexLe).length = vals.length := by
    rw [hperm.length_eq, hplen]
  have hne : (keyPairs keys vals).insertionSort lexLe ≠ [] := by
    intro habs
    rw [habs] at hslen
    simp at hslen
    omega
  have hsorted := List.sorted_insertionSort lexLe (keyPairs keys vals)
  set g := ((keyPairs keys vals).insertionSort lexLe).getLast hne with hg
  have hgmem : g ∈ keyPairs keys vals := hperm.subset (List.getLast_mem hne)
  obtain ⟨j, hj, hgj⟩ := (keyPairs_mem keys vals g).mp hgmem
  have hub : ∀ x ∈ keyPairs keys vals, lexLe x g := by
    intro x hx
    have hxs : x ∈ (keyPairs keys vals).insertionSort lexLe := hperm.mem_iff.mpr hx
    rcases pairwise_getLast lexLe _ hne hsorted x hxs with rfl | hr
    · exact lexLe_refl _
    · exact hr
  have hMmem : (keys.getD (argmaxLast keys) 0, argmaxLast keys,
      vals.getD (argmaxLast keys) 0) ∈ keyPairs keys vals :=
    (keyPairs_mem keys vals _).mpr ⟨argmaxLast keys, hmlt, rfl⟩
  have hMg := hub _ hMmem
  have hgM : lexLe g (keys.getD (argmaxLast keys) 0, argmaxLast keys,
      vals.getD (argmaxLast keys) 0) := by
    rw [hgj]
    have hle : keys.getD j 0 ≤ keys.getD (argmaxLast keys) 0 := by
      rw [hmn]
      exact amAux_le keys vals.length j hj
    rcases lt_or_eq_of_le hle with hlt | heq
    · exact Or.inl hlt
    · refine Or.inr ⟨heq, ?_⟩
      rw [hmn]
      apply amAux_last keys vals.length j hj
      rw [← hmn, heq]
  have hkeq : keys.getD (argmaxLast keys) 0 = keys.getD j 0 := by
    have h1 := lexLe_fst hMg
    have h2 := lexLe_fst hgM
    rw [hgj] at h1 h2
    exact le_antisymm (by simpa using h1) (by simpa using h2)
  have hjm : j = argmaxLast keys := by
    have hj1 : j ≤ argmaxLast keys := by
      rcases hgM with hlt | ⟨_, hle⟩
      · rw [hgj] at hlt
        simp only at hlt
        rw [hkeq] at hlt
        exact absurd hlt (lt_irrefl _)
      · rw [hgj] at hle
        exact hle
    have hj2 : argmaxLast keys ≤ j := by
      rcases hMg with hlt | ⟨_, hle⟩
      · rw [hgj] at hlt
        simp only at hlt
        rw [hkeq] at hlt
        exact absurd hlt (lt_irrefl _)
      · rw [hgj] at hle
        exact hle
    omega
  unfold eeSortLast
  rw [List.getLast?_eq_getLast _ hne]
  simp only [Option.elim]
  rw [← hg, hgj, hjm]

lemma bssList_length (counts means : List ℚ) :
    (bssList counts means).length = means.length := by
  simp [bssList, otsuIndices]

lemma bssList_getD (counts means : List ℚ) (p : ℕ) (hp : p < means.length) :
    (bssList counts means).getD p 0 = bssAt counts means (p + 1) := by
  unfold bssList otsuIndices
  have hlen : p < ((List.range' 1 means.length).map fun i => bssAt counts means i).length := by
    simp [hp]
  rw [List.getD_eq_getElem _ _ hlen, List.getElem_map]
  congr 1
  rw [List.getElem_range']
  omega

lemma otsu_eq (counts means : List ℚ) (h0 : 0 < means.length) :
    otsu counts means = means.getD (argmaxLast (bssList counts means)) 0 := by
  unfold otsu
  exact eeSortLast_eq _ _ (bssList_length counts means) h0

/-- On a histogram whose mass is confined to bucket `b`, every BSS entry
evaluates to 0 (each split leaves one side with zero count and the
other side's mean equal to the grand mean). -/
lemma bssAt_single (counts means : List ℚ) (n b : ℕ)
    (hc : counts.length = n) (hm : means.length = n) (hb : b < n)
    (hz : ∀ i, i < n → i ≠ b → counts.getD i 0 = 0)
    (k : ℕ) (hk2 : k ≤ n) : bssAt counts means k = 0 := by
  have hT : histTotal counts = counts.getD b 0 := by
    rw [histTotal_eq counts n hc]
    exact Finset.sum_eq_single_of_mem b (Finset.mem_range.mpr hb)
      (fun i hi hib => hz i (Finset.mem_range.mp hi) hib)
  have hU : histSum counts means = means.getD b 0 * counts.getD b 0 := by
    rw [histSum_eq counts means n hc hm]
    exact Finset.sum_eq_single_of_mem b (Finset.mem_range.mpr hb)
      (fun i hi hib => by rw [hz i (Finset.mem_range.mp hi) hib, mul_zero])
  by_cases hkb : k ≤ b
  · have hS : aCountAt counts k = 0 := by
      rw [aCountAt_eq counts k (by omega)]
      apply Finset.sum_eq_zero
      intro i hi
      have hik := Finset.mem_range.mp hi
      exact hz i (by omega) (by omega)
    have hW : (List.zipWith (· * ·) (means.take k) (counts.take k)).sum = 0 := by
      rw [sum_zipWith_take_eq means counts k (by omega) (by omega)]
      apply Finset.sum_eq_zero
      intro i hi
      have hik := Finset.mem_range.mp hi
      rw [hz i (by omega) (by omega), mul_zero]
    unfold bssAt bMeanAt aMeanAt bCountAt aCountAt otsuGrandMean histSum histTotal at *
    rw [hS, hW]
    simp only [zero_div, mul_zero, sub_zero, zero_mul, zero_add, zero_pow, ne_eq,
      OfNat.ofNat_ne_zero, not_false_eq_true]
    rw [sub_self]
    ring
  · have hS : aCountAt counts k = counts.getD b 0 := by
      rw [aCountAt_eq counts k (by omega)]
      refine Finset.sum_eq_single_of_mem b (Finset.mem_range.mpr (by omega)) ?_
      intro i hi hib
      have hik := Finset.mem_range.mp hi
      exact hz i (by omega) hib
    have hW : (List.zipWith (· * ·) (means.take k) (counts.take k)).sum
        = means.getD b 0 * counts.getD b 0 := by
      rw [sum_zipWith_take_eq means counts k (by omega) (by omega)]
      refine Finset.sum_eq_single_of_mem b (Finset.mem_range.mpr (by omega)) ?_
      intro i hi hib
      have hik := Finset.mem_range.mp hi
      rw [hz i (by omega) hib, mul_zero]
    unfold bssAt bMeanAt aMeanAt bCountAt aCountAt otsuGrandMean histSum histTotal at *
    rw [hS, hW, hT, hU]
    simp only [sub_self, zero_mul, mul_zero, zero_pow, ne_eq, OfNat.ofNat_ne_zero,
      not_false_eq_true, add_zero, zero_add]

/-- Claim C2 (corrected): on a histogram with all mass in a single
bucket the implemented `otsu` does not fail — every BSS entry is 0, the
stable sort leaves the means in order, and `get([-1])` returns the
highest bucket mean.  (The script defines no `DegenerateHistogramError`
at all.) -/
theorem C2_theorem (counts means : List ℚ) (n b : ℕ)
    (hc : counts.length = n) (hm : means.length = n) (hb : b < n)
    (_hpos : 0 < counts.getD b 0)
    (hz : ∀ i, i < n → i ≠ b → counts.getD i 0 = 0) :
    otsu counts means = means.getD (n - 1) 0 := by
  have h0 : 0 < n := by omega
  rw [otsu_eq counts means (by omega)]
  have hkl : (bssList counts means).length = n := by
    rw [bssList_length, hm]
  have hallz : ∀ p, p < n → (bssList counts means).getD p 0 = 0 := by
    intro p hp
    rw [bssList_getD counts means p (by omega)]
    exact bssAt_single counts means n b hc hm hb hz (p + 1) (by omega)
  have ham : argmaxLast (bssList counts means) = amAux (bssList counts means) n := by
    unfold argmaxLast
    rw [hkl]
  have hlt : amAux (bssList counts means) n < n := amAux_lt _ n h0
  have hlast : n - 1 ≤ amAux (bssList counts means) n := by
    apply amAux_last _ n (n - 1) (by omega)
    rw [hallz _ hlt, hallz (n - 1) (by omega)]
  have hfin : argmaxLast (bssList counts means) = n - 1 := by
    rw [ham]
    omega
  rw [hfin]

/-- Claim C2 counterexample: the histogram with counts `[0, 5, 0]` and
bucket means `[1, 2, 3]` has all mass in its middle bucket, yet `otsu`
returns the bucket mean 3 (the highest mean — not even the loaded
bucket's mean) instead of failing: the script has no failure path. -/
theorem C2_counterexample : otsu [0, 5, 0] [1, 2, 3] = 3 := by
  rw [otsu_eq [0, 5, 0] [1, 2, 3] (by norm_num)]
  have hallz : ∀ p, p < 3 → (bssList [0, 5, 0] [1, 2, 3]).getD p 0 = 0 := by
    intro p hp
    rw [bssList_getD _ _ p (by simpa using hp)]
    exact bssAt_single [0, 5, 0] [1, 2, 3] 3 1 rfl rfl (by norm_num)
      (by decide) (p + 1) (by omega)
  have ham : argmaxLast (bssList [0, 5, 0] [1, 2, 3])
      = amAux (bssList [0, 5, 0] [1, 2, 3]) 3 := by
    unfold argmaxLast
    rw [bssList_length]
    rfl
  have hlt : amAux (bssList [0, 5, 0] [1, 2, 3]) 3 < 3 := amAux_lt _ 3 (by norm_num)
  have hlast : 2 ≤ amAux (bssList [0, 5, 0] [1, 2, 3]) 3 := by
    apply amAux_last _ 3 2 (by norm_num)
    rw [hallz _ hlt, hallz 2 (by norm_num)]
  have hfin : argmaxLast (bssList [0, 5, 0] [1, 2, 3]) = 2 := by
    rw [ham]
    omega
  rw [hfin]
  rfl

/-- Claim C2 witness: the degenerate single-bucket histogram
`counts = [0, 5, 0]`, `means = [1, 2, 3]` evaluated through the
corrected statement. -/
theorem C2_witness : otsu [0, 5, 0] [1, 2, 3] = [(1 : ℚ), 2, 3].getD 2 0 :=
  C2_theorem [0, 5, 0] [1, 2, 3] 3 1 rfl rfl (by norm_num) (by decide) (by decide)

/-- Between-class variance written over class statistics: with positive
class counts and distinct class means it is strictly positive. -/
lemma bss_core_pos (S B am bm : ℚ) (hS : 0 < S) (hB : 0 < B) (hab : am < bm) :
    0 < S * (am - (S * am + B * bm) / (S + B)) ^ 2
      + B * (bm - (S * am + B * bm) / (S + B)) ^ 2 := by
  have hT : 0 < S + B := by linarith
  have hg : am < (S * am + B * bm) / (S + B) := by
    rw [lt_div_iff₀ hT]
    nlinarith
  have h1 : 0 < (am - (S * am + B * bm) / (S + B)) ^ 2 := by nlinarith
  nlinarith [mul_nonneg hB.le (sq_nonneg (bm - (S * am + B * bm) / (S + B)))]

/-- With strictly increasing bucket means, non-negative counts and two
non-empty buckets `i < j`, the split at `j` (bucket `i` in class A,
bucket `j` in class B) has strictly positive between-class variance. -/
lemma bssAt_pos (counts means : List ℚ) (n : ℕ)
    (hc : counts.length = n) (hm : means.length = n)
    (hmono : means.Pairwise (· < ·))
    (hnonneg : ∀ q ∈ counts, 0 ≤ q)
    (i j : ℕ) (hij : i < j) (hjn : j < n)
    (hci : 0 < counts.getD i 0) (hcj : 0 < counts.getD j 0) :
    0 < bssAt counts means j := by
  have hnn : ∀ t, t < n → 0 ≤ counts.getD t 0 := by
    intro t ht
    rw [List.getD_eq_getElem _ _ (by omega)]
    exact hnonneg _ (List.getElem_mem _)
  have hmlt : ∀ a b, a < b → b < n → means.getD a 0 < means.getD b 0 := by
    intro a b hab hbn
    rw [List.getD_eq_getElem _ _ (by omega), List.getD_eq_getElem _ _ (by omega)]
    exact List.pairwise_iff_getElem.mp hmono a b (by omega) (by omega) hab
  have hmle : ∀ a b, a ≤ b → b < n → means.getD a 0 ≤ means.getD b 0 := by
    intro a b hab hbn
    rcases eq_or_lt_of_le hab with rfl | hlt
    · exact le_refl _
    · exact le_of_lt (hmlt a b hlt hbn)
  -- class counts
  have hSsum : aCountAt counts j = ∑ t ∈ Finset.range j, counts.getD t 0 :=
    aCountAt_eq counts j (by omega)
  have hS : 0 < aCountAt counts j := by
    rw [hSsum]
    calc (0 : ℚ) < counts.getD i 0 := hci
      _ ≤ ∑ t ∈ Finset.range j, counts.getD t 0 :=
        Finset.single_le_sum (fun t ht => hnn t (by
          have := Finset.mem_range.mp ht
          omega)) (Finset.mem_range.mpr hij)
  have hsplitc : histTotal counts
      = aCountAt counts j + ∑ t ∈ Finset.Ico j n, counts.getD t 0 := by
    rw [histTotal_eq counts n hc, hSsum, Finset.range_eq_Ico]
    rw [← Finset.sum_Ico_consecutive _ (Nat.zero_le j) (le_of_lt hjn)]
  have hBsum : bCountAt counts j = ∑ t ∈ Finset.Ico j n, counts.getD t 0 := by
    unfold bCountAt
    rw [hsplitc, add_sub_cancel_left]
  have hB : 0 < bCountAt counts j := by
    rw [hBsum]
    calc (0 : ℚ) < counts.getD j 0 := hcj
      _ ≤ ∑ t ∈ Finset.Ico j n, counts.getD t 0 :=
        Finset.single_le_sum (fun t ht => hnn t (Finset.mem_Ico.mp ht).2)
          (Finset.mem_Ico.mpr ⟨le_refl j, hjn⟩)
  -- class-A mean bounded by the last bucket mean of class A
  have hWsum : (List.zipWith (· * ·) (means.take j) (counts.take j)).sum
      = ∑ t ∈ Finset.range j, means.getD t 0 * counts.getD t 0 :=
    sum_zipWith_take_eq means counts j (by omega) (by omega)
  have hWle : (List.zipWith (· * ·) (means.take j) (counts.take j)).sum
      ≤ means.getD (j - 1) 0 * aCountAt counts j := by
    rw [hWsum, hSsum, Finset.mul_sum]
    apply Finset.sum_le_sum
    intro t ht
    have htj := Finset.mem_range.mp ht
    exact mul_le_mul_of_nonneg_right (hmle t (j - 1) (by omega) (by omega)) (hnn t (by omega))
  have haMean : aMeanAt counts means j ≤ means.getD (j - 1) 0 := by
    unfold aMeanAt
    rw [div_le_iff₀ hS]
    exact hWle
  -- class-B mean bounded below by the first bucket mean of class B
  have hSa : aCountAt counts j * aMeanAt counts means j
      = (List.zipWith (· * ·) (means.take j) (counts.take j)).sum := by
    unfold aMeanAt
    rw [mul_comm]
    exact div_mul_cancel₀ _ (ne_of_gt hS)
  have hsplitm : histSum counts means
      = (List.zipWith (· * ·) (means.take j) (counts.take j)).sum
        + ∑ t ∈ Finset.Ico j n, means.getD t 0 * counts.getD t 0 := by
    rw [histSum_eq counts means n hc hm, hWsum, Finset.range_eq_Ico]
    rw [← Finset.sum_Ico_consecutive _ (Nat.zero_le j) (le_of_lt hjn)]
  have hUWge : means.getD j 0 * bCountAt counts j
      ≤ ∑ t ∈ Finset.Ico j n, means.getD t 0 * counts.getD t 0 := by
    rw [hBsum, Finset.mul_sum]
    apply Finset.sum_le_sum
    intro t ht
    obtain ⟨htj, htn⟩ := Finset.mem_Ico.mp ht
    exact mul_le_mul_of_nonneg_right (hmle j t htj htn) (hnn t htn)
  have hbMean : means.getD j 0 ≤ bMeanAt counts means j := by
    unfold bMeanAt
    rw [hSa, le_div_iff₀ hB]
    calc means.getD j 0 * bCountAt counts j
        ≤ ∑ t ∈ Finset.Ico j n, means.getD t 0 * counts.getD t 0 := hUWge
      _ = histSum counts means
          - (List.zipWith (· * ·) (means.take j) (counts.take j)).sum := by
          rw [hsplitm]; ring
  have hab : aMeanAt counts means j < bMeanAt counts means j :=
    lt_of_le_of_lt haMean (lt_of_lt_of_le (hmlt (j - 1) j (by omega) hjn) hbMean)
  -- the grand mean as the weighted average of the two class means
  have hBb : bCountAt counts j * bMeanAt counts means j
      = histSum counts means
        - (List.zipWith (· * ·) (means.take j) (counts.take j)).sum := by
    unfold bMeanAt
    rw [hSa, mul_comm]
    exact div_mul_cancel₀ _ (ne_of_gt hB)
  have hTrepr : histTotal counts = aCountAt counts j + bCountAt counts j := by
    unfold bCountAt
    ring
  have hUrepr : histSum counts means
      = aCountAt counts j * aMeanAt counts means j
        + bCountAt counts j * bMeanAt counts means j := by
    rw [hSa, hBb]
    ring
  have hg : otsuGrandMean counts means
      = (aCountAt counts j * aMeanAt counts means j
          + bCountAt counts j * bMeanAt counts means j)
        / (aCountAt counts j + bCountAt counts j) := by
    unfold otsuGrandMean
    rw [hUrepr, hTrepr]
  unfold bssAt
  rw [hg]
  exact bss_core_pos _ _ _ _ hS hB hab

/-- Claim C1 counterexample: for a 3-bucket histogram the code's split
index list `ee.List.sequence(1, size)` is `[1, 2, 3]` — it includes
`N = 3`, so BSS is computed at `N` splits, not only for `k` from 1 to
`N − 1` (the BSS list of a concrete 3-bucket histogram has 3 entries). -/
theorem C1_counterexample :
    otsuIndices 3 = [1, 2, 3] ∧ (bssList [1, 1, 1] [0, 1, 2]).length = 3 :=
  ⟨rfl, rfl⟩

/-- Claim C1 (corrected): the code evaluates BSS at split indices
`1 … N` (at `k = N` class B is empty and the entry evaluates to 0), and
for a histogram with strictly increasing bucket means, non-negative
counts and at least two non-empty buckets the returned threshold is the
bucket mean at the split index in `1 … N − 1` maximising BSS, ties
broken towards the highest split (hence the highest-valued maximising
mean); the threshold is always one of the bucket means. -/
theorem C1_theorem (counts means : List ℚ) (n : ℕ)
    (hc : counts.length = n) (hm : means.length = n)
    (hmono : means.Pairwise (· < ·))
    (hnonneg : ∀ q ∈ counts, 0 ≤ q)
    (htwo : ∃ j, j < n ∧ 0 < counts.getD j 0 ∧ ∃ i, i < j ∧ 0 < counts.getD i 0) :
    ∃ k, 1 ≤ k ∧ k ≤ n - 1 ∧
      (∀ j, 1 ≤ j → j ≤ n - 1 → bssAt counts means j ≤ bssAt counts means k) ∧
      (∀ j, 1 ≤ j → j ≤ n - 1 → bssAt counts means k ≤ bssAt counts means j → j ≤ k) ∧
      otsu counts means = means.getD (k - 1) 0 ∧
      means.getD (k - 1) 0 ∈ means := by
  obtain ⟨j₀, hj₀n, hcj₀, i₀, hi₀j₀, hci₀⟩ := htwo
  have hn2 : 2 ≤ n := by omega
  have hpos : 0 < bssAt counts means j₀ :=
    bssAt_pos counts means n hc hm hmono hnonneg i₀ j₀ hi₀j₀ hj₀n hci₀ hcj₀
  have hkl : (bssList counts means).length = n := by
    rw [bssList_length, hm]
  have ham : argmaxLast (bssList counts means) = amAux (bssList counts means) n := by
    unfold argmaxLast
    rw [hkl]
  have halt : amAux (bssList counts means) n < n := amAux_lt _ n (by omega)
  have hgd : ∀ p, p < n → (bssList counts means).getD p 0 = bssAt counts means (p + 1) := by
    intro p hp
    exact bssList_getD counts means p (by omega)
  have hlastz : (bssList counts means).getD (n - 1) 0 = 0 := by
    rw [hgd (n - 1) (by omega)]
    have h1 : n - 1 + 1 = n := by omega
    rw [h1]
    exact (bssAt_length counts means n hc hm).2
  have hj₀pos : 0 < (bssList counts means).getD (j₀ - 1) 0 := by
    rw [hgd (j₀ - 1) (by omega)]
    have h1 : j₀ - 1 + 1 = j₀ := by omega
    rw [h1]
    exact hpos
  have hapos : 0 < (bssList counts means).getD (amAux (bssList counts means) n) 0 :=
    lt_of_lt_of_le hj₀pos (amAux_le _ n (j₀ - 1) (by omega))
  have hane : amAux (bssList counts means) n ≠ n - 1 := by
    intro habs
    rw [habs, hlastz] at hapos
    exact absurd hapos (lt_irrefl 0)
  refine ⟨amAux (bssList counts means) n + 1, by omega, by omega, ?_, ?_, ?_, ?_⟩
  · intro j hj1 hj2
    have h1 : bssAt counts means j = (bssList counts means).getD (j - 1) 0 := by
      rw [hgd (j - 1) (by omega)]
      congr 1
      omega
    have h2 : bssAt counts means (amAux (bssList counts means) n + 1)
        = (bssList counts means).getD (amAux (bssList counts means) n) 0 :=
      (hgd _ halt).symm
    rw [h1, h2]
    exact amAux_le _ n (j - 1) (by omega)
  · intro j hj1 hj2 hle
    have h1 : bssAt counts means j = (bssList counts means).getD (j - 1) 0 := by
      rw [hgd (j - 1) (by omega)]
      congr 1
      omega
    have h2 : bssAt counts means (amAux (bssList counts means) n + 1)
        = (bssList counts means).getD (amAux (bssList counts means) n) 0 :=
      (hgd _ halt).symm
    rw [h1, h2] at hle
    have := amAux_last _ n (j - 1) (by omega) hle
    omega
  · rw [otsu_eq counts means (by omega), ham]
    congr 1
  · rw [List.getD_eq_getElem means 0 (by omega)]
    exact List.getElem_mem _

/-- Claim C1 witness: the corrected statement evaluated on the
two-bucket histogram `counts = [1, 1]`, `means = [0, 1]`. -/
theorem C1_witness :
    ∃ k, 1 ≤ k ∧ k ≤ 2 - 1 ∧
      (∀ j, 1 ≤ j → j ≤ 2 - 1 → bssAt [1, 1] [0, 1] j ≤ bssAt [1, 1] [0, 1] k) ∧
      (∀ j, 1 ≤ j → j ≤ 2 - 1 → bssAt [1, 1] [0, 1] k ≤ bssAt [1, 1] [0, 1] j → j ≤ k) ∧
      otsu [1, 1] [0, 1] = [(0 : ℚ), 1].getD (k - 1) 0 ∧
      [(0 : ℚ), 1].getD (k - 1) 0 ∈ [(0 : ℚ), 1] :=
  C1_theorem [1, 1] [0, 1] 2 rfl rfl (by decide) (by decide)
    ⟨1, by decide, by decide, 0, by decide, by decide⟩

/-! # Helper lemmas about connected components -/

lemma subset_compStep (V : Finset Cell) (ok : Cell → Cell → Bool) (s : Finset Cell) :
    s ⊆ compStep V ok s :=
  Finset.subset_union_left

lemma compStep_subset (V : Finset Cell) (ok : Cell → Cell → Bool) (s : Finset Cell)
    (hs : s ⊆ V) : compStep V ok s ⊆ V := by
  unfold compStep
  intro x hx
  rcases Finset.mem_union.mp hx with h | h
  · exact hs h
  · exact (Finset.mem_filter.mp h).1

lemma iterate_subset_V (V : Finset Cell) (ok : Cell → Cell → Bool) (c : Cell)
    (hc : c ∈ V) (n : ℕ) : (compStep V ok)^[n] {c} ⊆ V := by
  induction n with
  | zero =>
    rw [Function.iterate_zero_apply]
    exact Finset.singleton_subset_iff.mpr hc
  | succ m ih =>
    rw [Function.iterate_succ_apply']
    exact compStep_subset V ok _ ih

lemma iterate_fix_propagate (V : Finset Cell) (ok : Cell → Cell → Bool) (s : Finset Cell)
    (k : ℕ) (hfix : compStep V ok ((compStep V ok)^[k] s) = (compStep V ok)^[k] s) :
    ∀ m, (compStep V ok)^[k + m] s = (compStep V ok)^[k] s := by
  intro m
  induction m with
  | zero => rfl
  | succ l ih =>
    have h1 : k + (l + 1) = (k + l) + 1 := by omega
    rw [h1, Function.iterate_succ_apply', ih, hfix]

lemma exists_fix (V : Finset Cell) (ok : Cell → Cell → Bool) (c : Cell) (hc : c ∈ V) :
    ∃ k ≤ V.card, compStep V ok ((compStep V ok)^[k] {c}) = (compStep V ok)^[k] {c} := by
  by_contra habs
  push_neg at habs
  have hgrow : ∀ k, k ≤ V.card + 1 → k + 1 ≤ ((compStep V ok)^[k] {c}).card := by
    intro k
    induction k with
    | zero =>
      intro _
      rw [Function.iterate_zero_apply]
      simp
    | succ l ih =>
      intro hk
      have hne := habs l (by omega)
      have hss : (compStep V ok)^[l] {c} ⊂ (compStep V ok)^[l + 1] {c} := by
        rw [Function.iterate_succ_apply']
        exact Finset.ssubset_iff_subset_ne.mpr ⟨subset_compStep _ _ _, Ne.symm hne⟩
      have hlt := Finset.card_lt_card hss
      have hih := ih (by omega)
      omega
  have hcard : ((compStep V ok)^[V.card + 1] {c}).card ≤ V.card :=
    Finset.card_le_card (iterate_subset_V V ok c hc (V.card + 1))
  have := hgrow (V.card + 1) (le_refl _)
  omega

lemma component_fix (V : Finset Cell) (ok : Cell → Cell → Bool) (c : Cell) (hc : c ∈ V) :
    compStep V ok (component V ok c) = component V ok c := by
  obtain ⟨k, hk, hfix⟩ := exists_fix V ok c hc
  unfold component
  have h1 : V.card + 1 = k + (V.card + 1 - k) := by omega
  rw [h1, iterate_fix_propagate V ok {c} k hfix (V.card + 1 - k)]
  exact hfix

lemma singleton_subset_component (V : Finset Cell) (ok : Cell → Cell → Bool) (c : Cell) :
    ({c} : Finset Cell) ⊆ component V ok c := by
  unfold component
  have hchain : ∀ n, ({c} : Finset Cell) ⊆ (compStep V ok)^[n] {c} := by
    intro n
    induction n with
    | zero =>
      rw [Function.iterate_zero_apply]
    | succ m ih =>
      rw [Function.iterate_succ_apply']
      exact subset_trans ih (subset_compStep _ _ _)
  exact hchain _

lemma mem_component_iff (V : Finset Cell) (ok : Cell → Cell → Bool) (c : Cell)
    (hc : c ∈ V) (b : Cell) :
    b ∈ component V ok c ↔ Relation.ReflTransGen (stepRel V ok) c b := by
  constructor
  · have hgen : ∀ n, ∀ x ∈ (compStep V ok)^[n] {c},
        Relation.ReflTransGen (stepRel V ok) c x := by
      intro n
      induction n with
      | zero =>
        intro x hx
        rw [Function.iterate_zero_apply] at hx
        rcases Finset.mem_singleton.mp hx with rfl
        exact Relation.ReflTransGen.refl
      | succ m ih =>
        intro x hx
        rw [Function.iterate_succ_apply'] at hx
        unfold compStep at hx
        rcases Finset.mem_union.mp hx with h | h
        · exact ih x h
        · obtain ⟨hxV, a, has, hok⟩ := Finset.mem_filter.mp h
          have haV : a ∈ V := iterate_subset_V V ok c hc m has
          exact (ih a has).tail ⟨haV, hxV, hok⟩
    exact hgen _ b
  · intro h
    induction h with
    | refl => exact singleton_subset_component V ok c (Finset.mem_singleton_self c)
    | tail hxy hstep ih =>
      rw [← component_fix V ok c hc]
      unfold compStep
      apply Finset.mem_union_right
      obtain ⟨hxV, hyV, hok⟩ := hstep
      exact Finset.mem_filter.mpr ⟨hyV, ⟨_, ih, hok⟩⟩

lemma component_subset_V (V : Finset Cell) (ok : Cell → Cell → Bool) (c : Cell)
    (hc : c ∈ V) : component V ok c ⊆ V :=
  iterate_subset_V V ok c hc (V.card + 1)

lemma component_eq_of_mem (V : Finset Cell) (ok : Cell → Cell → Bool)
    (hok : ∀ a b, ok a b = ok b a) (c b : Cell) (hc : c ∈ V)
    (hb : b ∈ component V ok c) : component V ok b = component V ok c := by
  have hbV : b ∈ V := component_subset_V V ok c hc hb
  have hsym : Symmetric (stepRel V ok) := by
    rintro x y ⟨hx, hy, hxy⟩
    exact ⟨hy, hx, by rw [hok y x]; exact hxy⟩
  have hcb : Relation.ReflTransGen (stepRel V ok) c b :=
    (mem_component_iff V ok c hc b).mp hb
  have hbc : Relation.ReflTransGen (stepRel V ok) b c :=
    Relation.ReflTransGen.symmetric hsym hcb
  ext x
  rw [mem_component_iff V ok b hbV x, mem_component_iff V ok c hc x]
  constructor
  · intro hbx
    exact Relation.ReflTransGen.trans hcb hbx
  · intro hcx
    exact Relation.ReflTransGen.trans hbc hcx

lemma component_congr (V : Finset Cell) (ok1 ok2 : Cell → Cell → Bool) (c : Cell)
    (hc : c ∈ V) (h : ∀ a ∈ V, ∀ b ∈ V, ok1 a b = ok2 a b) :
    component V ok1 c = component V ok2 c := by
  have hrel : ∀ x y, stepRel V ok1 x y ↔ stepRel V ok2 x y := by
    intro x y
    unfold stepRel
    constructor
    · rintro ⟨hx, hy, hxy⟩
      exact ⟨hx, hy, by rw [← h x hx y hy]; exact hxy⟩
    · rintro ⟨hx, hy, hxy⟩
      exact ⟨hx, hy, by rw [h x hx y hy]; exact hxy⟩
  have hrel2 : stepRel V ok1 = stepRel V ok2 := by
    funext x y
    exact propext (hrel x y)
  ext b
  rw [mem_component_iff V ok1 c hc b, mem_component_iff V ok2 c hc b, hrel2]

lemma natAbs_sub_comm (x y : ℤ) : (x - y).natAbs = (y - x).natAbs := by
  rw [← Int.natAbs_neg (x - y), neg_sub]

lemma adjRel_symm (eight : Bool) (a b : Cell) : adjRel eight a b = adjRel eight b a := by
  unfold adjRel adj8 adj4
  cases eight
  · simp only [Bool.false_eq_true, if_false]
    rw [natAbs_sub_comm a.1 b.1, natAbs_sub_comm a.2 b.2]
  · simp only [if_true]
    rw [natAbs_sub_comm a.1 b.1, natAbs_sub_comm a.2 b.2,
      decide_eq_decide.mpr (ne_comm (a := a) (b := b))]

lemma validCells_edgeFilter (grid : Finset Cell) (eight : Bool) (maxSize L : ℕ)
    (img : Cell → Option ℚ) :
    validCells grid (edgeFilter grid eight maxSize L img) = validCells grid img := by
  unfold validCells
  apply Finset.filter_congr
  intro d _
  simp [edgeFilter, connectedPixelCount]

/-- Claim C7 (corrected): the connected-pixel-count filter is idempotent
on every edge raster whose unmasked pixels all carry one common value —
in particular on the constant-valued masked canny-edge raster the
script actually feeds it.  (On two-valued rasters idempotence fails,
see the counterexample: removed small same-value components can merge
into a large one.) -/
theorem C7_theorem (grid : Finset Cell) (eight : Bool) (maxSize L : ℕ)
    (img : Cell → Option ℚ)
    (hsupp : ∀ c, c ∉ grid → img c = none)
    (hconst : ∀ a ∈ grid, ∀ b ∈ grid, (img a).isSome → (img b).isSome → img a = img b)
    (c : Cell) :
    edgeFilter grid eight maxSize L (edgeFilter grid eight maxSize L img) c
      = edgeFilter grid eight maxSize L img c := by
  have hmap : ∀ (h : Cell → Option ℚ) (x : Cell) (v : ℚ), h x = some v →
      edgeFilter grid eight maxSize L h x
        = some (if L ≤ min (component (validCells grid h) (okSame h eight) x).card maxSize
            then 1 else 0) := by
    intro h x v hx
    unfold edgeFilter connectedPixelCount
    rw [hx]
    rfl
  by_cases hcm : (img c).isSome
  case neg =>
    have hnone : img c = none := Option.not_isSome_iff_eq_none.mp hcm
    simp [edgeFilter, connectedPixelCount, hnone]
  case pos =>
  have hcg : c ∈ grid := by
    by_contra hcg
    rw [hsupp c hcg] at hcm
    simp at hcm
  have hcV : c ∈ validCells grid img := Finset.mem_filter.mpr ⟨hcg, hcm⟩
  have hVV : validCells grid (edgeFilter grid eight maxSize L img) = validCells grid img :=
    validCells_edgeFilter grid eight maxSize L img
  have hok1 : ∀ a ∈ validCells grid img, ∀ b ∈ validCells grid img,
      okSame img eight a b = adjRel eight a b := by
    intro a ha b hb
    obtain ⟨hag, has⟩ := Finset.mem_filter.mp ha
    obtain ⟨hbg, hbs⟩ := Finset.mem_filter.mp hb
    unfold okSame sameValue
    rw [hconst a hag b hbg has hbs]
    simp
  have hcomp1 : ∀ x ∈ validCells grid img,
      component (validCells grid img) (okSame img eight) x
        = component (validCells grid img) (fun a b => adjRel eight a b) x := by
    intro x hx
    exact component_congr _ _ _ x hx hok1
  have hval : ∀ x ∈ component (validCells grid img) (fun a b => adjRel eight a b) c,
      edgeFilter grid eight maxSize L img x = edgeFilter grid eight maxSize L img c := by
    intro x hx
    have hxV : x ∈ validCells grid img := component_subset_V _ _ c hcV hx
    obtain ⟨hxg, hxs⟩ := Finset.mem_filter.mp hxV
    have hcompeq : component (validCells grid img) (fun a b => adjRel eight a b) x
        = component (validCells grid img) (fun a b => adjRel eight a b) c :=
      component_eq_of_mem _ _ (fun a b => adjRel_symm eight a b) c x hcV hx
    obtain ⟨vx, hvx⟩ := Option.isSome_iff_exists.mp hxs
    obtain ⟨vc, hvc⟩ := Option.isSome_iff_exists.mp hcm
    rw [hmap img x vx hvx, hmap img c vc hvc]
    rw [hcomp1 x hxV, hcomp1 c hcV, hcompeq]
  have hcomp2 : component (validCells grid img)
        (okSame (edgeFilter grid eight maxSize L img) eight) c
      = component (validCells grid img) (fun a b => adjRel eight a b) c := by
    ext b
    rw [mem_component_iff _ _ c hcV b, mem_component_iff _ _ c hcV b]
    constructor
    · intro h
      refine Relation.ReflTransGen.mono ?_ h
      rintro x y ⟨hx, hy, hxy⟩
      refine ⟨hx, hy, ?_⟩
      unfold okSame at hxy
      simp only [Bool.and_eq_true] at hxy
      exact hxy.1
    · intro h
      induction h with
      | refl => exact Relation.ReflTransGen.refl
      | tail hab hstep ih =>
        obtain ⟨hxV, hyV, hadj⟩ := hstep
        refine ih.tail ⟨hxV, hyV, ?_⟩
        unfold okSame sameValue
        rw [Bool.and_eq_true]
        refine ⟨hadj, ?_⟩
        rw [decide_eq_true_eq]
        have hxc := (mem_component_iff (validCells grid img)
          (fun a b => adjRel eight a b) c hcV _).mpr hab
        have hyc := (mem_component_iff (validCells grid img)
          (fun a b => adjRel eight a b) c hcV _).mpr (hab.tail ⟨hxV, hyV, hadj⟩)
        rw [hval _ hxc, hval _ hyc]
  obtain ⟨vc, hvc⟩ := Option.isSome_iff_exists.mp hcm
  have himgc : edgeFilter grid eight maxSize L img c
      = some (if L ≤ min (component (validCells grid img) (okSame img eight) c).card maxSize
          then 1 else 0) := hmap img c vc hvc
  rw [hmap (edgeFilter grid eight maxSize L img) c _ himgc, himgc]
  rw [hVV, hcomp2, hcomp1 c hcV]

/-- Claim C7 counterexample: `connectedPixelCount` labels components of
*same-valued* pixels, so the filter is not idempotent on every edge
raster.  Two adjacent unmasked pixels with values 0 and 1 (reachable in
the script whenever `cannyThreshold < cannyLt`) each form a size-1
component: one pass with minimum length 2 maps both to 0; the second
pass then sees a single size-2 zero-valued component and maps both to 1. -/
theorem C7_counterexample :
    edgeFilter {((0 : ℤ), (0 : ℤ)), ((1 : ℤ), (0 : ℤ))} true 100 2
        (edgeFilter {((0 : ℤ), (0 : ℤ)), ((1 : ℤ), (0 : ℤ))} true 100 2
          (fun c => if c = ((0 : ℤ), (0 : ℤ)) then some 0
            else if c = ((1 : ℤ), (0 : ℤ)) then some 1 else none))
        ((0 : ℤ), (0 : ℤ))
      ≠ edgeFilter {((0 : ℤ), (0 : ℤ)), ((1 : ℤ), (0 : ℤ))} true 100 2
        (fun c => if c = ((0 : ℤ), (0 : ℤ)) then some 0
          else if c = ((1 : ℤ), (0 : ℤ)) then some 1 else none)
        ((0 : ℤ), (0 : ℤ)) := by decide

/-- Claim C7 witness: idempotence on a concrete constant-valued masked
raster (a one-pixel edge mask with value 0, the shape the script's
canny stage produces). -/
theorem C7_witness :
    edgeFilter {((0 : ℤ), (0 : ℤ))} true 100 1
        (edgeFilter {((0 : ℤ), (0 : ℤ))} true 100 1
          (fun c => if c = ((0 : ℤ), (0 : ℤ)) then some 0 else none)) ((0 : ℤ), (0 : ℤ))
      = edgeFilter {((0 : ℤ), (0 : ℤ))} true 100 1
        (fun c => if c = ((0 : ℤ), (0 : ℤ)) then some 0 else none) ((0 : ℤ), (0 : ℤ)) :=
  C7_theorem {((0 : ℤ), (0 : ℤ))} true 100 1
    (fun c => if c = ((0 : ℤ), (0 : ℤ)) then some 0 else none)
    (by
      intro c hc
      rw [Finset.mem_singleton] at hc
      exact if_neg hc)
    (by
      intro a ha b hb _ _
      rw [Finset.mem_singleton] at ha hb
      rw [ha, hb])
    ((0 : ℤ), (0 : ℤ))
